import Mathlib

/-!
Verification of the deterministic-term generation and extension protocol
demonstrated in `src/examples/python/deterministics.py`.

The repository's own code contributes two custom `DeterministicTerm`
subclasses, `BrokenTimeTrend` and `ExogenousProcess`; the surrounding
`DeterministicProcess` machinery (`in_sample`, `out_of_sample`, `range`,
`_extend_index`, equality of terms) belongs to the external statsmodels
library and is modelled here from the specification's description of it.

Indices are modelled as arithmetic ranges (start, step, length), matching
the `pd.RangeIndex` / fixed-frequency `PeriodIndex` values used by the
source: the spec requires an ordered, gap-free sequence with a fixed step.
Frames carry column names, an index (list of integer labels) and rows of
integer values, which covers every value the two custom terms produce.
-/

/-- An ordered, gap-free index with fixed step size: entry `i` is
`start + step * i`.  Models `pd.RangeIndex` and fixed-frequency period
indices as used in the source. -/
structure RIndex where
  start : Int
  step : Int
  len : Nat
  deriving Repr, DecidableEq

/-- The label at position `i` of the index. -/
def RIndex.val (ix : RIndex) (i : Nat) : Int :=
  ix.start + ix.step * i

/-- The labels of the index, in order. -/
def RIndex.labels (ix : RIndex) : List Int :=
  (List.range ix.len).map ix.val

/-- A generated frame: a table of numeric values with named columns and a
row index, modelling the `pd.DataFrame` values produced by the terms. -/
structure Frame where
  colNames : List String
  index : List Int
  rows : List (List Int)
  deriving Repr, DecidableEq

/-- Number of rows of a frame. -/
def Frame.rowCount (f : Frame) : Nat :=
  f.rows.length

/-- Modelled from the spec: the shared index-extension primitive
(`DeterministicTerm._extend_index` of the external library, not present
under `src/`).  If no forecast index is supplied it computes an extended
index of length `steps` immediately following the base index, keeping the
base index's step size; a supplied forecast index is used as-is. -/
def extendIndex (base : RIndex) (steps : Nat) (forecast : Option RIndex) : RIndex :=
  match forecast with
  | some f => f
  | none => { start := base.start + base.step * base.len, step := base.step, len := steps }

/-- Model of `BrokenTimeTrend` from the source: a custom term with a single
configuration attribute, the break period. -/
structure BrokenTimeTrend where
  break_period : Nat
  deriving Repr, DecidableEq

/-- Model of `BrokenTimeTrend._eq_attr`: the configuration tuple `(break_period,)`. -/
def BrokenTimeTrend.eq_attr (t : BrokenTimeTrend) : List Int :=
  [(t.break_period : Int)]

/-- Model of `BrokenTimeTrend.in_sample`: an `nobs × 2` zero array, with rows from
`break_period` on set to `1` in column `const_break` and to
`break_period + 1, …, nobs` in column `trend_break` (the NumPy
assignments `terms[b:, 0] = 1` and `terms[b:, 1] = arange(b + 1, nobs + 1)`,
so row `i ≥ b` holds `i + 1`). -/
def BrokenTimeTrend.in_sample (t : BrokenTimeTrend) (index : RIndex) : Frame :=
  let nobs := index.len
  { colNames := ["const_break", "trend_break"]
    index := index.labels
    rows := (List.range nobs).map fun i =>
      if t.break_period ≤ i then [1, (i : Int) + 1] else [0, 0] }

/-- Model of `BrokenTimeTrend.out_of_sample`: always calls `_extend_index` first,
then fills `const_break` with ones and `trend_break` with
`nobs + 1, …, nobs + steps` (the break is assumed in-sample), indexed by
the forecast index. -/
def BrokenTimeTrend.out_of_sample (_t : BrokenTimeTrend) (steps : Nat)
    (index : RIndex) (forecast_index : Option RIndex) : Frame :=
  let fcast_index := extendIndex index steps forecast_index
  let nobs := index.len
  { colNames := ["const_break", "trend_break"]
    index := fcast_index.labels
    rows := (List.range steps).map fun (j : Nat) => [1, (nobs : Int) + 1 + (j : Int)] }

/-- The data held by an `ExogenousProcess`: a `pd.DataFrame` modelled as an
association of integer row labels to rows of values, plus column names. -/
structure ExogData where
  cols : List String
  table : List (Int × List Int)
  deriving Repr, DecidableEq

/-- Row selection for a list of labels (`DataFrame.loc[labels]`): each
label must be present, otherwise the lookup fails (pandas `KeyError`). -/
def ExogData.locRows (d : ExogData) : List Int → Option (List (List Int))
  | [] => some []
  | l :: rest =>
    match d.table.lookup l, d.locRows rest with
    | some r, some rs => some (r :: rs)
    | _, _ => none

/-- Model of `DataFrame.loc[labels]`, returning a frame indexed by the requested
labels, or failure if any label is missing. -/
def ExogData.loc (d : ExogData) (labels : List Int) : Option Frame :=
  (d.locRows labels).map fun rows => { colNames := d.cols, index := labels, rows := rows }

/-- Model of `ExogenousProcess` from the source: wraps held exogenous data.  The
`dataId` field models Python's `id(self._data)`, the object identity of
the held data, which the source uses in `_eq_attr`. -/
structure ExogenousProcess where
  dataId : Nat
  data : ExogData
  deriving Repr, DecidableEq

/-- Model of `ExogenousProcess._eq_attr`: the tuple `(id(self._data),)` — keyed on
object identity of the held data, not on its contents. -/
def ExogenousProcess.eq_attr (t : ExogenousProcess) : List Int :=
  [(t.dataId : Int)]

/-- Model of `ExogenousProcess.in_sample`: `self._data.loc[index]`. -/
def ExogenousProcess.in_sample (t : ExogenousProcess) (index : RIndex) : Option Frame :=
  t.data.loc index.labels

/-- Model of `ExogenousProcess.out_of_sample`: extends the index via
`_extend_index`, then selects `self._data.loc[forecast_index]`. -/
def ExogenousProcess.out_of_sample (t : ExogenousProcess) (steps : Nat)
    (index : RIndex) (forecast_index : Option RIndex) : Option Frame :=
  let fidx := extendIndex index steps forecast_index
  t.data.loc fidx.labels

/-- Modelled from the spec: `DeterministicTerm.__eq__` of the external
library compares two terms of the same variant by their `_eq_attr`
configuration tuples. -/
def bttEq (a b : BrokenTimeTrend) : Bool :=
  a.eq_attr == b.eq_attr

/-- Modelled from the spec: equality of two `ExogenousProcess` instances,
comparing their `_eq_attr` tuples. -/
def epEq (a b : ExogenousProcess) : Bool :=
  a.eq_attr == b.eq_attr

/-- A term of a `DeterministicProcess`: the polymorphic capability set
every term variant implements (`in_sample` and `out_of_sample`
generators).  A generator returning `none` models a raised exception
(such as the pandas `KeyError` of `ExogenousProcess` on missing labels). -/
structure Term where
  inSample : RIndex → Option Frame
  outOfSample : Nat → RIndex → Option RIndex → Option Frame

/-- The `BrokenTimeTrend` term packaged with the common capability set. -/
def Term.ofBtt (t : BrokenTimeTrend) : Term where
  inSample ix := some (t.in_sample ix)
  outOfSample steps ix fidx := some (t.out_of_sample steps ix fidx)

/-- The `ExogenousProcess` term packaged with the common capability set. -/
def Term.ofEp (t : ExogenousProcess) : Term where
  inSample ix := t.in_sample ix
  outOfSample steps ix fidx := t.out_of_sample steps ix fidx

/-- Failure modes of the term-set operations described by the spec:
`ShapeMismatch` when a term returns output not aligned to the requested
index, `RangeError` for invalid or unlocatable range bounds, and
`TermFailure` when a term's own generator raises (propagated unchanged). -/
inductive DetError where
  | ShapeMismatch
  | RangeError
  | TermFailure
  deriving Repr, DecidableEq

/-- Modelled from the spec: a `DeterministicProcess` (term set) constructed
once from a base index and an ordered list of terms. -/
structure DetProc where
  index : RIndex
  terms : List Term

/-- Invoke each term's in-sample generator in order, collecting the
frames; `none` if any generator raises. -/
def collectInSample : List Term → RIndex → Option (List Frame)
  | [], _ => some []
  | t :: ts, ix =>
    match t.inSample ix, collectInSample ts ix with
    | some f, some fs => some (f :: fs)
    | _, _ => none

/-- Invoke each term's out-of-sample generator with
`(steps, base index, extended index)` in order, collecting the frames;
`none` if any generator raises. -/
def collectOutOfSample : List Term → Nat → RIndex → RIndex → Option (List Frame)
  | [], _, _, _ => some []
  | t :: ts, steps, ix, fidx =>
    match t.outOfSample steps ix (some fidx), collectOutOfSample ts steps ix fidx with
    | some f, some fs => some (f :: fs)
    | _, _ => none

/-- Column-wise concatenation of frames whose row counts all equal
`labels.length`: one row per label, each row the concatenation of the
corresponding rows of the frames, columns in term order. -/
def hcat (labels : List Int) (fs : List Frame) : Frame :=
  { colNames := (fs.map Frame.colNames).flatten
    index := labels
    rows := (List.range labels.length).map fun i =>
      (fs.map fun f => f.rows.getD i []).flatten }

/-- The row of a frame carrying a given index label, if present
(first match). -/
def Frame.rowAt (f : Frame) (label : Int) : Option (List Int) :=
  (f.index.zip f.rows).lookup label

/-- The rows all frames carry at a given label, in term order; `none` if
any frame misses the label. -/
def rowsAt : List Frame → Int → Option (List (List Int))
  | [], _ => some []
  | f :: rest, l =>
    match f.rowAt l, rowsAt rest l with
    | some r, some rs => some (r :: rs)
    | _, _ => none

/-- Row-align a list of frames to the given labels: for each label, each
frame must carry a row at that label; the aligned row is the
concatenation of those rows.  Fails if any frame misses a label. -/
def alignRows (fs : List Frame) : List Int → Option (List (List Int))
  | [] => some []
  | l :: ls =>
    match rowsAt fs l, alignRows fs ls with
    | some pieces, some rest => some (pieces.flatten :: rest)
    | _, _ => none

/-- Modelled from the spec: `DeterministicProcess.in_sample` — invoke each
term's in-sample generator over the full stored index, require every
returned frame to have as many rows as the index (`ShapeMismatch`
otherwise), and concatenate columns in term order. -/
def DetProc.in_sample (p : DetProc) : Except DetError Frame :=
  match collectInSample p.terms p.index with
  | none => .error .TermFailure
  | some fs =>
    if fs.all fun f => f.rowCount = p.index.len then
      .ok (hcat p.index.labels fs)
    else
      .error .ShapeMismatch

/-- Modelled from the spec: `DeterministicProcess.out_of_sample` — compute
the extended index of length `steps` immediately following the stored
index via the shared extension primitive, invoke each term's
out-of-sample generator with `(steps, base index, extended index)`, and
concatenate the results row-aligned to the extended index
(`ShapeMismatch` if a term's output is not aligned to it). -/
def DetProc.out_of_sample (p : DetProc) (steps : Nat) : Except DetError Frame :=
  match collectOutOfSample p.terms steps p.index (extendIndex p.index steps none) with
  | none => .error .TermFailure
  | some fs =>
    match alignRows fs (extendIndex p.index steps none).labels with
    | none => .error .ShapeMismatch
    | some rows =>
      .ok { colNames := (fs.map Frame.colNames).flatten
            index := (extendIndex p.index steps none).labels
            rows := rows }

/-- A range bound: either an integer offset, or a calendar-like index
value that must be resolved on the index's implied frequency grid. -/
inductive Bound where
  | pos (p : Nat)
  | label (v : Int)
  deriving Repr, DecidableEq

/-- Locate a calendar-like value on the index's implied frequency grid,
extended indefinitely past the stored sample: position `i` such that the
value equals `start + step * i`, or `none` if the value does not lie on
the grid. -/
def RIndex.locate (ix : RIndex) (v : Int) : Option Nat :=
  if 0 < ix.step ∧ ix.start ≤ v ∧ (v - ix.start) % ix.step = 0 then
    some ((v - ix.start) / ix.step).toNat
  else
    none

/-- Resolve a range bound to an integer position: integer offsets stand
as given, calendar-like values are located on the implied grid. -/
def resolveBound (ix : RIndex) (b : Bound) : Option Nat :=
  match b with
  | .pos p => some p
  | .label v => ix.locate v

/-- The out-of-sample rows needed by `range`: none when the requested
range ends inside the stored index, otherwise the labelled rows of
`out_of_sample` for the needed suffix length. -/
def DetProc.oosRows (p : DetProc) (stepsOut : Nat) : Except DetError (List (Int × List Int)) :=
  if stepsOut = 0 then
    .ok []
  else
    match p.out_of_sample stepsOut with
    | .ok oos => .ok (oos.index.zip oos.rows)
    | .error e => .error e

/-- Modelled from the spec: `DeterministicProcess.range` — resolve the
bounds to integer positions (`RangeError` if a calendar value cannot be
located, or if the resolved stop precedes the resolved start), compute
the in-sample rows and the needed out-of-sample suffix, concatenate, and
return exactly the requested sub-range, inclusive of `stop`. -/
def DetProc.range (p : DetProc) (start stop : Bound) : Except DetError Frame :=
  match resolveBound p.index start, resolveBound p.index stop with
  | some s, some e =>
    if e < s then
      .error .RangeError
    else
      match p.in_sample with
      | .error err => .error err
      | .ok ins =>
        match p.oosRows (e + 1 - p.index.len) with
        | .error err => .error err
        | .ok oosR =>
          .ok { colNames := ins.colNames
                index := ((((ins.index.zip ins.rows) ++ oosR).drop s).take (e + 1 - s)).map Prod.fst
                rows := ((((ins.index.zip ins.rows) ++ oosR).drop s).take (e + 1 - s)).map Prod.snd }
  | _, _ => .error .RangeError

/-- The observable state of a constructed `DeterministicProcess`: its
immutable configuration plus the one mutable slot the spec allows, a
cache of the extended out-of-sample index. -/
structure DetProcState where
  proc : DetProc
  cachedExtIndex : Option RIndex

/-- The operation `in_sample` as a state-passing operation: the source's generators
assign to no attribute of the process or of its terms, so the call
returns its value and leaves the state untouched. -/
def DetProcState.inSampleRead (st : DetProcState) : Except DetError Frame × DetProcState :=
  (st.proc.in_sample, st)

/-! ### Concrete fixtures (used by witnesses) -/

/-- A concrete base index of length 5, as `pd.RangeIndex(0, 5)`. -/
def idxW : RIndex := ⟨0, 1, 5⟩

/-- A concrete broken time trend with break period 2. -/
def bttW : BrokenTimeTrend := ⟨2⟩

/-- Concrete exogenous data covering labels 0 through 6. -/
def exogW : ExogData :=
  ⟨["exog1"], [(0, [10]), (1, [11]), (2, [12]), (3, [13]), (4, [14]), (5, [15]), (6, [16])]⟩

/-- A concrete exogenous-process term holding `exogW`. -/
def epW : ExogenousProcess := ⟨0, exogW⟩

/-- A concrete term set over `idxW` holding one term of each custom variant. -/
def dpW : DetProc := ⟨idxW, [Term.ofBtt bttW, Term.ofEp epW]⟩

/-- The in-sample frame `dpW` generates. -/
def insW : Frame :=
  { colNames := ["const_break", "trend_break", "exog1"]
    index := [0, 1, 2, 3, 4]
    rows := [[0, 0, 10], [0, 0, 11], [1, 3, 12], [1, 4, 13], [1, 5, 14]] }

/-- A term whose in-sample output has the wrong number of rows. -/
def badTerm : Term where
  inSample _ := some { colNames := ["bad"], index := [], rows := [] }
  outOfSample _ _ _ := none

/-- A term set holding only the misbehaving term. -/
def dpBad : DetProc := ⟨idxW, [badTerm]⟩

/-! ### Helper lemmas -/

theorem RIndex.labels_length (ix : RIndex) : ix.labels.length = ix.len := by
  simp [RIndex.labels]

theorem alignRows_length (fs : List Frame) :
    ∀ ls rows, alignRows fs ls = some rows → rows.length = ls.length := by
  intro ls
  induction ls with
  | nil =>
    intro rows h
    simp only [alignRows, Option.some.injEq] at h
    subst h
    rfl
  | cons l ls ih =>
    intro rows h
    unfold alignRows at h
    cases hm : rowsAt fs l with
    | none => rw [hm] at h; exact absurd h (by simp)
    | some pieces =>
      cases ha : alignRows fs ls with
      | none => rw [hm, ha] at h; exact absurd h (by simp)
      | some rest =>
        rw [hm, ha] at h
        simp only [Option.some.injEq] at h
        subst h
        simp [ih rest ha]

theorem hcat_rows_length (labels : List Int) (fs : List Frame) :
    (hcat labels fs).rows.length = labels.length := by
  simp [hcat]

theorem in_sample_ok_shape (p : DetProc) (g : Frame) (h : p.in_sample = .ok g) :
    g.index = p.index.labels ∧ g.rows.length = p.index.len := by
  unfold DetProc.in_sample at h
  split at h
  · exact absurd h (by simp)
  · split at h
    · simp only [Except.ok.injEq] at h
      subst h
      exact ⟨rfl, by rw [hcat_rows_length, RIndex.labels_length]⟩
    · exact absurd h (by simp)

theorem out_of_sample_ok_shape (p : DetProc) (steps : Nat) (g : Frame)
    (h : p.out_of_sample steps = .ok g) :
    g.index = (extendIndex p.index steps none).labels ∧ g.rows.length = steps := by
  unfold DetProc.out_of_sample at h
  split at h
  · exact absurd h (by simp)
  · rename_i fs hc
    split at h
    · exact absurd h (by simp)
    · rename_i rows ha
      simp only [Except.ok.injEq] at h
      subst h
      exact ⟨rfl, by rw [alignRows_length _ _ _ ha, RIndex.labels_length]; rfl⟩

theorem locRows_length (d : ExogData) :
    ∀ ls rows, d.locRows ls = some rows → rows.length = ls.length := by
  intro ls
  induction ls with
  | nil =>
    intro rows h
    simp only [ExogData.locRows, Option.some.injEq] at h
    subst h
    rfl
  | cons l ls ih =>
    intro rows h
    unfold ExogData.locRows at h
    cases hl : d.table.lookup l with
    | none => rw [hl] at h; exact absurd h (by simp)
    | some r =>
      cases hr : d.locRows ls with
      | none => rw [hl, hr] at h; exact absurd h (by simp)
      | some rs =>
        rw [hl, hr] at h
        simp only [Option.some.injEq] at h
        subst h
        simp [ih rs hr]

theorem loc_some_shape (d : ExogData) (labels : List Int) (f : Frame)
    (h : d.loc labels = some f) : f.index = labels ∧ f.rows.length = labels.length := by
  unfold ExogData.loc at h
  cases hr : d.locRows labels with
  | none => rw [hr] at h; exact absurd h (by simp)
  | some rows =>
    rw [hr] at h
    simp only [Option.map_some', Option.some.injEq] at h
    subst h
    exact ⟨rfl, locRows_length d labels rows hr⟩

theorem lookup_zip_isSome (l : Int) : ∀ (a : List Int) (b : List (List Int)),
    a.length = b.length → l ∈ a → (List.lookup l (a.zip b)).isSome := by
  intro a
  induction a with
  | nil => intro b _ h; cases h
  | cons x xs ih =>
    intro b hlen hmem
    cases b with
    | nil => simp at hlen
    | cons y ys =>
      rw [List.zip_cons_cons, List.lookup]
      by_cases hx : l = x
      · simp [hx]
      · have hb : (l == x) = false := by simp [hx]
        rw [hb]
        have hmem' : l ∈ xs := by
          rcases List.mem_cons.mp hmem with h | h
          · exact absurd h hx
          · exact h
        exact ih ys (by simpa using hlen) hmem'

theorem rowAt_isSome (f : Frame) (l : Int) (hlen : f.index.length = f.rows.length)
    (hmem : l ∈ f.index) : (f.rowAt l).isSome :=
  lookup_zip_isSome l f.index f.rows hlen hmem

theorem rowsAt_isSome (l : Int) : ∀ (fs : List Frame),
    (∀ f ∈ fs, (f.rowAt l).isSome) → (rowsAt fs l).isSome := by
  intro fs
  induction fs with
  | nil => intro _; simp [rowsAt]
  | cons f fs ih =>
    intro h
    obtain ⟨r, hr⟩ := Option.isSome_iff_exists.mp (h f (by simp))
    obtain ⟨rs, hrs⟩ := Option.isSome_iff_exists.mp (ih fun g hg => h g (by simp [hg]))
    unfold rowsAt
    rw [hr, hrs]
    rfl

theorem alignRows_isSome (fs : List Frame) :
    ∀ ls, (∀ l ∈ ls, (rowsAt fs l).isSome) →
    ∃ rows, alignRows fs ls = some rows := by
  intro ls
  induction ls with
  | nil => intro _; exact ⟨[], rfl⟩
  | cons l ls ih =>
    intro h
    obtain ⟨pieces, hp⟩ := Option.isSome_iff_exists.mp (h l (by simp))
    obtain ⟨rest, hrest⟩ := ih fun x hx => h x (by simp [hx])
    exact ⟨pieces.flatten :: rest, by unfold alignRows; rw [hp, hrest]⟩

theorem collectOutOfSample_all (steps : Nat) (ix fidx : RIndex) :
    ∀ (ts : List Term),
    (∀ t ∈ ts, ∃ f, t.outOfSample steps ix (some fidx) = some f ∧
        f.index = fidx.labels ∧ f.rows.length = fidx.len) →
    ∃ fs, collectOutOfSample ts steps ix fidx = some fs ∧
      ∀ f ∈ fs, f.index = fidx.labels ∧ f.rows.length = fidx.len := by
  intro ts
  induction ts with
  | nil => intro _; exact ⟨[], rfl, by simp⟩
  | cons t ts ih =>
    intro h
    obtain ⟨f, hf, hfi, hfr⟩ := h t (by simp)
    obtain ⟨fs, hfs, hall⟩ := ih fun u hu => h u (by simp [hu])
    refine ⟨f :: fs, ?_, ?_⟩
    · unfold collectOutOfSample
      rw [hf, hfs]
    · intro g hg
      rcases List.mem_cons.mp hg with rfl | hg'
      · exact ⟨hfi, hfr⟩
      · exact hall g hg'

theorem btt_in_sample_row (b : Nat) (index : RIndex) (i : Nat) (h : i < index.len) :
    ((BrokenTimeTrend.mk b).in_sample index).rows.getD i [] =
      (if i < b then ([0, 0] : List Int) else [1, (i : Int) + 1]) := by
  simp only [BrokenTimeTrend.in_sample]
  rw [List.getD_eq_getElem?_getD, List.getElem?_map, List.getElem?_range h]
  simp only [Option.map_some', Option.getD_some]
  by_cases hib : i < b
  · rw [if_pos hib, if_neg (by omega)]
  · rw [if_neg hib, if_pos (by omega)]

/-! ### Claim theorems -/

/-- C9: `BrokenTimeTrend(b).in_sample` over an index of length `n` returns
a two-column frame `[const_break, trend_break]` with `n` rows whose row at
each position `i < b` is `(0, 0)` and at each position `i ≥ b` is
`(1, i + 1)` — the trend restarts at `b + 1` at the break and ends at `n`. -/
theorem btt_in_sample_values (b : Nat) (index : RIndex) (i : Nat) (h : i < index.len) :
    ((BrokenTimeTrend.mk b).in_sample index).colNames = ["const_break", "trend_break"] ∧
    ((BrokenTimeTrend.mk b).in_sample index).rowCount = index.len ∧
    ((BrokenTimeTrend.mk b).in_sample index).rows.getD i [] =
      (if i < b then ([0, 0] : List Int) else [1, (i : Int) + 1]) :=
  ⟨rfl, by simp [BrokenTimeTrend.in_sample, Frame.rowCount], btt_in_sample_row b index i h⟩

theorem btt_in_sample_values_witness :
    ((BrokenTimeTrend.mk 2).in_sample idxW).colNames = ["const_break", "trend_break"] ∧
    ((BrokenTimeTrend.mk 2).in_sample idxW).rowCount = idxW.len ∧
    ((BrokenTimeTrend.mk 2).in_sample idxW).rows.getD 3 [] =
      (if 3 < 2 then ([0, 0] : List Int) else [1, (3 : Int) + 1]) :=
  btt_in_sample_values 2 idxW 3 (by decide)

/-- C10: `BrokenTimeTrend.out_of_sample(steps, index)` returns `steps` rows
with `const_break` identically `1` and `trend_break` running
`n + 1, …, n + steps` (with `n` the base index length), independent of the
break period; in particular when `break_period ≥ n` the out-of-sample frame
treats the break as active even though `in_sample` is all zeros. -/
theorem btt_out_of_sample_values (b b' : Nat) (steps : Nat) (index : RIndex) (j : Nat)
    (hj : j < steps) :
    ((BrokenTimeTrend.mk b).out_of_sample steps index none).rowCount = steps ∧
    ((BrokenTimeTrend.mk b).out_of_sample steps index none).rows.getD j [] =
      [1, (index.len : Int) + 1 + j] ∧
    (BrokenTimeTrend.mk b).out_of_sample steps index none
      = (BrokenTimeTrend.mk b').out_of_sample steps index none ∧
    (index.len ≤ b → ∀ i, i < index.len →
      ((BrokenTimeTrend.mk b).in_sample index).rows.getD i [] = ([0, 0] : List Int)) := by
  refine ⟨by simp [BrokenTimeTrend.out_of_sample, Frame.rowCount], ?_, rfl, ?_⟩
  · simp only [BrokenTimeTrend.out_of_sample]
    rw [List.getD_eq_getElem?_getD, List.getElem?_map, List.getElem?_range hj]
    simp
  · intro hb i hi
    rw [btt_in_sample_row b index i hi, if_pos (by omega)]

theorem btt_out_of_sample_values_witness :
    ((BrokenTimeTrend.mk 7).out_of_sample 3 idxW none).rowCount = 3 ∧
    ((BrokenTimeTrend.mk 7).out_of_sample 3 idxW none).rows.getD 1 [] =
      [1, (idxW.len : Int) + 1 + 1] ∧
    (BrokenTimeTrend.mk 7).out_of_sample 3 idxW none
      = (BrokenTimeTrend.mk 2).out_of_sample 3 idxW none ∧
    (idxW.len ≤ 7 → ∀ i, i < idxW.len →
      ((BrokenTimeTrend.mk 7).in_sample idxW).rows.getD i [] = ([0, 0] : List Int)) :=
  btt_out_of_sample_values 7 2 3 idxW 1 (by decide)

/-- C4 counterexample: the claim "two Term instances are equal iff their
configuration tuples are equal; in particular, two Terms reconstructed from
equivalent configuration data compare equal" fails for `ExogenousProcess`:
two instances holding equal data but distinct object identities compare
unequal, because `_eq_attr` returns `(id(self._data),)`. -/
theorem exog_equality_by_identity_counterexample :
    ¬ ((epEq ⟨1, exogW⟩ ⟨2, exogW⟩ = true) ↔
       (ExogenousProcess.mk 1 exogW).data = (ExogenousProcess.mk 2 exogW).data) := by
  decide

/-- C4 amended: term equality compares `_eq_attr` tuples.  For
`BrokenTimeTrend` the tuple is the configuration `(break_period,)`, so
reconstructed instances with the same break period compare equal; for
`ExogenousProcess` the tuple is the object identity of the held data, so
instances are equal iff they hold the very same data object — reconstructed
instances with merely equivalent data need not compare equal. -/
theorem term_equality_by_eq_attr :
    (∀ a b : BrokenTimeTrend, bttEq a b = true ↔ a.break_period = b.break_period) ∧
    (∀ a b : ExogenousProcess, epEq a b = true ↔ a.dataId = b.dataId) := by
  constructor
  · intro a b
    simp [bttEq, BrokenTimeTrend.eq_attr]
  · intro a b
    simp [epEq, ExogenousProcess.eq_attr]

/-- C8: `in_sample` is a pure, deterministic read: as a state-passing
operation it leaves the term-set state (including the cached extension
index) unchanged, and a second call yields identical output. -/
theorem in_sample_pure_read (st : DetProcState) :
    st.inSampleRead.2 = st ∧
    st.inSampleRead.1 = st.inSampleRead.2.inSampleRead.1 :=
  ⟨rfl, rfl⟩

/-- C3: for each Term variant, `out_of_sample(steps, index)` called without
a forecast index derives it via the shared index-extension primitive
`extendIndex` (a pure function of the base index and step count), and any
returned frame is row-aligned to that extended index with exactly `steps`
rows.  For `ExogenousProcess` the conclusion holds whenever a frame is
returned at all (missing labels raise instead). -/
theorem term_out_of_sample_derives_extension :
    (∀ (t : BrokenTimeTrend) (steps : Nat) (index : RIndex), 0 < steps →
      (t.out_of_sample steps index none).index = (extendIndex index steps none).labels ∧
      (t.out_of_sample steps index none).rowCount = steps) ∧
    (∀ (e : ExogenousProcess) (steps : Nat) (index : RIndex) (f : Frame), 0 < steps →
      e.out_of_sample steps index none = some f →
      f.index = (extendIndex index steps none).labels ∧ f.rowCount = steps) := by
  constructor
  · intro t steps index _
    exact ⟨rfl, by simp [BrokenTimeTrend.out_of_sample, Frame.rowCount]⟩
  · intro e steps index f _ h
    unfold ExogenousProcess.out_of_sample at h
    have hs := loc_some_shape e.data (extendIndex index steps none).labels f h
    refine ⟨hs.1, ?_⟩
    rw [Frame.rowCount, hs.2, RIndex.labels_length]
    rfl

theorem term_out_of_sample_derives_extension_witness :
    ((bttW.out_of_sample 3 idxW none).index = (extendIndex idxW 3 none).labels ∧
     (bttW.out_of_sample 3 idxW none).rowCount = 3) ∧
    ((Frame.mk ["exog1"] [5, 6] [[15], [16]]).index = (extendIndex idxW 2 none).labels ∧
     (Frame.mk ["exog1"] [5, 6] [[15], [16]]).rowCount = 2) :=
  ⟨term_out_of_sample_derives_extension.1 bttW 3 idxW (by decide),
   term_out_of_sample_derives_extension.2 epW 2 idxW (Frame.mk ["exog1"] [5, 6] [[15], [16]])
     (by decide) (by decide)⟩

/-- C2: `in_sample()` on a term set returns a frame whose row count equals
the index length (columns concatenated in term order); and whenever some
term returns a frame with a different row count, `in_sample` fails with
`ShapeMismatch`. -/
theorem in_sample_shape_contract :
    (∀ (p : DetProc) (g : Frame), p.in_sample = .ok g → g.rowCount = p.index.len) ∧
    (∀ (p : DetProc) (fs : List Frame) (f : Frame),
      collectInSample p.terms p.index = some fs → f ∈ fs → f.rowCount ≠ p.index.len →
      p.in_sample = .error .ShapeMismatch) := by
  constructor
  · intro p g h
    exact (in_sample_ok_shape p g h).2
  · intro p fs f hc hmem hne
    have hall : ¬(fs.all fun f => f.rowCount = p.index.len) = true := by
      simp only [List.all_eq_true, decide_eq_true_eq]
      intro hall
      exact hne (hall f hmem)
    simp only [DetProc.in_sample, hc]
    rw [if_neg hall]

theorem in_sample_shape_contract_witness :
    insW.rowCount = dpW.index.len ∧ dpBad.in_sample = .error .ShapeMismatch :=
  ⟨in_sample_shape_contract.1 dpW insW rfl,
   in_sample_shape_contract.2 dpBad [Frame.mk ["bad"] [] []] (Frame.mk ["bad"] [] [])
     (by decide) (by simp) (by decide)⟩

/-- C1: for every positive `steps`, `out_of_sample(steps)` on a term set
whose terms honour the extension contract returns a frame with exactly
`steps` rows, row-aligned to the extended index, and that extended index
immediately follows the stored base index (its first entry is one step
past the last base entry) with the same step size. -/
theorem out_of_sample_steps_rows (p : DetProc) (steps : Nat) (_hsteps : 0 < steps)
    (hterms : ∀ t ∈ p.terms, ∃ f,
      t.outOfSample steps p.index (some (extendIndex p.index steps none)) = some f ∧
      f.index = (extendIndex p.index steps none).labels ∧
      f.rows.length = (extendIndex p.index steps none).len) :
    ∃ g, p.out_of_sample steps = .ok g ∧ g.rowCount = steps ∧
      g.index = (extendIndex p.index steps none).labels ∧
      (extendIndex p.index steps none).step = p.index.step ∧
      (extendIndex p.index steps none).start = p.index.start + p.index.step * p.index.len := by
  obtain ⟨fs, hc, hall⟩ := collectOutOfSample_all steps p.index _ p.terms hterms
  have hsome : ∀ l ∈ (extendIndex p.index steps none).labels, (rowsAt fs l).isSome := by
    intro l hl
    apply rowsAt_isSome
    intro f hf
    have hfp := hall f hf
    apply rowAt_isSome
    · rw [hfp.1, hfp.2, RIndex.labels_length]
    · rw [hfp.1]
      exact hl
  obtain ⟨rows, hrows⟩ := alignRows_isSome fs _ hsome
  refine ⟨⟨(fs.map Frame.colNames).flatten, (extendIndex p.index steps none).labels, rows⟩,
    ?_, ?_, rfl, rfl, rfl⟩
  · simp only [DetProc.out_of_sample, hc, hrows]
  · show rows.length = steps
    rw [alignRows_length _ _ _ hrows, RIndex.labels_length]
    rfl

theorem oosRows_ok_length (p : DetProc) (k : Nat) (r : List (Int × List Int))
    (h : p.oosRows k = .ok r) : r.length = k := by
  unfold DetProc.oosRows at h
  by_cases hk : k = 0
  · rw [if_pos hk] at h
    simp only [Except.ok.injEq] at h
    subst h
    simp [hk]
  · rw [if_neg hk] at h
    cases ho : p.out_of_sample k with
    | error err => rw [ho] at h; exact absurd h (by simp)
    | ok oos =>
      rw [ho] at h
      simp only [Except.ok.injEq] at h
      subst h
      have hs := out_of_sample_ok_shape p k oos ho
      rw [List.length_zip, hs.1, RIndex.labels_length, hs.2]
      exact Nat.min_self _

/-- C5: `range(start, stop)` is inclusive of `stop`: a resolved range from
position `p` to position `q` with `p ≤ q` yields `q - p + 1` rows, and in
particular `range(a, a)` returns exactly one row. -/
theorem range_inclusive_row_count :
    (∀ (p : DetProc) (b1 b2 : Bound) (s e : Nat) (g : Frame),
      resolveBound p.index b1 = some s → resolveBound p.index b2 = some e → s ≤ e →
      p.range b1 b2 = .ok g → g.rowCount = e - s + 1) ∧
    (∀ (p : DetProc) (a : Nat) (g : Frame),
      p.range (.pos a) (.pos a) = .ok g → g.rowCount = 1) := by
  have part1 : ∀ (p : DetProc) (b1 b2 : Bound) (s e : Nat) (g : Frame),
      resolveBound p.index b1 = some s → resolveBound p.index b2 = some e → s ≤ e →
      p.range b1 b2 = .ok g → g.rowCount = e - s + 1 := by
    intro p b1 b2 s e g h1 h2 hse hr
    simp only [DetProc.range, h1, h2] at hr
    rw [if_neg (by omega)] at hr
    cases hins : p.in_sample with
    | error err => simp only [hins] at hr; exact absurd hr (by simp)
    | ok ins =>
      simp only [hins] at hr
      cases hoos : p.oosRows (e + 1 - p.index.len) with
      | error err => simp only [hoos] at hr; exact absurd hr (by simp)
      | ok oosR =>
        simp only [hoos, Except.ok.injEq] at hr
        subst hr
        have hinshape := in_sample_ok_shape p ins hins
        have hinlen : ins.index.length = p.index.len := by
          rw [hinshape.1]
          exact RIndex.labels_length _
        have hziplen : (ins.index.zip ins.rows).length = p.index.len := by
          rw [List.length_zip, hinlen, hinshape.2]
          exact Nat.min_self _
        have hoolen := oosRows_ok_length p _ _ hoos
        have hall : (ins.index.zip ins.rows ++ oosR).length = p.index.len + (e + 1 - p.index.len) := by
          rw [List.length_append, hziplen, hoolen]
        show ((((ins.index.zip ins.rows ++ oosR).drop s).take (e + 1 - s)).map Prod.snd).length
          = e - s + 1
        rw [List.length_map, List.length_take, List.length_drop, hall]
        omega
  refine ⟨part1, fun p a g h => ?_⟩
  have := part1 p (.pos a) (.pos a) a a g rfl rfl le_rfl h
  omega

theorem range_inclusive_row_count_witness :
    (Frame.mk ["const_break", "trend_break", "exog1"] [3, 4, 5, 6]
      [[1, 4, 13], [1, 5, 14], [1, 6, 15], [1, 7, 16]]).rowCount = 6 - 3 + 1 ∧
    (Frame.mk ["const_break", "trend_break", "exog1"] [2] [[1, 3, 12]]).rowCount = 1 :=
  ⟨range_inclusive_row_count.1 dpW (.pos 3) (.pos 6) 3 6
      (Frame.mk ["const_break", "trend_break", "exog1"] [3, 4, 5, 6]
        [[1, 4, 13], [1, 5, 14], [1, 6, 15], [1, 7, 16]]) rfl rfl (by decide) rfl,
   range_inclusive_row_count.2 dpW 2
      (Frame.mk ["const_break", "trend_break", "exog1"] [2] [[1, 3, 12]]) rfl⟩

/-- C6: over an index of length `n`, `range(0, n - 1)` returns a frame
equal to the frame returned by `in_sample()`. -/
theorem range_full_equals_in_sample (p : DetProc) (g : Frame) (hn : 0 < p.index.len)
    (h : p.in_sample = .ok g) :
    p.range (.pos 0) (.pos (p.index.len - 1)) = .ok g := by
  have hshape := in_sample_ok_shape p g h
  obtain ⟨cols, gidx, grows⟩ := g
  simp only at hshape
  have hglen : gidx.length = p.index.len := by
    rw [hshape.1]
    exact RIndex.labels_length _
  simp only [DetProc.range, resolveBound]
  rw [if_neg (by omega)]
  simp only [h]
  have h0 : p.index.len - 1 + 1 - p.index.len = 0 := by omega
  rw [h0]
  have hoz : p.oosRows 0 = .ok [] := by simp [DetProc.oosRows]
  simp only [hoz]
  have h1 : p.index.len - 1 + 1 - 0 = p.index.len := by omega
  rw [h1]
  have hziplen : (gidx.zip grows).length = p.index.len := by
    rw [List.length_zip, hglen, hshape.2]
    exact Nat.min_self _
  rw [List.append_nil, List.drop_zero, ← hziplen, List.take_length]
  rw [List.map_fst_zip _ _ (by omega), List.map_snd_zip _ _ (by omega)]

theorem range_full_equals_in_sample_witness :
    dpW.range (.pos 0) (.pos (dpW.index.len - 1)) = .ok insW :=
  range_full_equals_in_sample dpW insW (by decide) rfl

/-- C7: `range(start, stop)` fails with `RangeError` whenever the resolved
stop position precedes the resolved start position, or whenever a
calendar-like bound — in either the start or the stop slot — cannot be
located on the index's implied frequency grid; no frame is returned in
those cases. -/
theorem range_invalid_bounds_error :
    (∀ (p : DetProc) (b1 b2 : Bound) (s e : Nat),
      resolveBound p.index b1 = some s → resolveBound p.index b2 = some e → e < s →
      p.range b1 b2 = .error .RangeError) ∧
    (∀ (p : DetProc) (b2 : Bound) (v : Int), p.index.locate v = none →
      p.range (.label v) b2 = .error .RangeError) ∧
    (∀ (p : DetProc) (b1 : Bound) (v : Int), p.index.locate v = none →
      p.range b1 (.label v) = .error .RangeError) := by
  refine ⟨?_, ?_, ?_⟩
  · intro p b1 b2 s e h1 h2 hlt
    simp only [DetProc.range, h1, h2]
    rw [if_pos hlt]
  · intro p b2 v hv
    have h1 : resolveBound p.index (Bound.label v) = none := hv
    unfold DetProc.range
    rw [h1]
  · intro p b1 v hv
    have h2 : resolveBound p.index (Bound.label v) = none := hv
    unfold DetProc.range
    rw [h2]
    cases hb : resolveBound p.index b1 <;> rfl

theorem range_invalid_bounds_error_witness :
    dpW.range (.pos 5) (.pos 3) = .error .RangeError ∧
    dpW.range (.label (-3)) (.pos 4) = .error .RangeError ∧
    dpW.range (.pos 0) (.label (-3)) = .error .RangeError :=
  ⟨range_invalid_bounds_error.1 dpW (.pos 5) (.pos 3) 5 3 rfl rfl (by decide),
   range_invalid_bounds_error.2.1 dpW (.pos 4) (-3) (by decide),
   range_invalid_bounds_error.2.2 dpW (.pos 0) (-3) (by decide)⟩

theorem out_of_sample_steps_rows_witness :
    ∃ g, dpW.out_of_sample 2 = .ok g ∧ g.rowCount = 2 ∧
      g.index = (extendIndex dpW.index 2 none).labels ∧
      (extendIndex dpW.index 2 none).step = dpW.index.step ∧
      (extendIndex dpW.index 2 none).start = dpW.index.start + dpW.index.step * dpW.index.len :=
  out_of_sample_steps_rows dpW 2 (by decide) (by
    intro t ht
    simp only [dpW, List.mem_cons, List.not_mem_nil, or_false] at ht
    rcases ht with rfl | rfl
    · exact ⟨bttW.out_of_sample 2 dpW.index (some (extendIndex dpW.index 2 none)),
        rfl, by decide, by decide⟩
    · exact ⟨Frame.mk ["exog1"] [5, 6] [[15], [16]], by decide, by decide, by decide⟩)
